import Mathlib

/-!
Verification of the chunking and vector-store subsystem of RAGForge.

The development shallowly embeds `src/database/chroma_client.py` (class
`ChromaDBManager`) and `src/chunking/chunking.py`.  The manager is a thin
wrapper over the chromadb library; the backing collection semantics
(count, add, delete, update, query, get_or_create_collection) are not part
of the repository, so they are modelled from the specification's
VectorStore contract and carry doc comments saying so.  Embedding vectors
are modelled over `ℚ` so that distances are exact.

One genuine slip in the source is embedded faithfully: the call inside
`add_chunks` reads

  `self.collection.add(ndocuments=chunks,nembeddings=embeddings,nmetadatas=metadatas,nids=ids)`

whose keyword names `ndocuments`, `nembeddings`, `nmetadatas`, `nids` are
not parameters of chromadb's `Collection.add`, so Python raises a
`TypeError` on every call before anything is written.  The embedding keeps
the call-site keyword list and the accepted parameter list as data and has
`addChunks` fail exactly when a keyword is not accepted; the insertion the
surrounding code and docstring intend is modelled separately as
`addChunksIntended`.
-/

namespace RAGForge

/-- Errors surfaced by the store layer: `typeError` is Python's TypeError
(raised for an unexpected keyword argument), `notFoundError` is the spec's
NotFoundError for updates that reference unknown ids. -/
inductive StoreError where
  | typeError
  | notFoundError
  deriving DecidableEq

/-- Metadata dictionary of a chunk, modelled as an association list with
string keys and values. -/
abbrev Meta := List (String × String)

/-- One stored chunk: id, document text, embedding vector and metadata. -/
structure Entry where
  id : String
  document : String
  embedding : List ℚ
  metadata : Meta
  deriving DecidableEq

/-- The persistent database: an association list from collection name to
that collection's entries, entries kept in insertion order. -/
abbrev DB := List (String × List Entry)

/-- Lookup of a collection by name (first match). -/
def dbLookup : DB → String → Option (List Entry)
  | [], _ => none
  | p :: rest, n => if p.1 == n then some p.2 else dbLookup rest n

/-- Replace the entries of the named collection, creating it at the end of
the database when absent. -/
def dbSet : DB → String → List Entry → DB
  | [], n, es => [(n, es)]
  | p :: rest, n, es => if p.1 == n then (n, es) :: rest else p :: dbSet rest n es

/-- Modelled from the spec: chromadb's `get_or_create_collection` — the
named collection is created lazily (empty) when absent and reused, with
its contents untouched, when present. -/
def getOrCreate (db : DB) (n : String) : DB :=
  match dbLookup db n with
  | some _ => db
  | none => db ++ [(n, [])]

/-- Modelled from the spec: chromadb's `delete_collection` removes the
named collection and all chunks in it. -/
def dbDelete : DB → String → DB
  | [], _ => []
  | p :: rest, n => if p.1 == n then rest else p :: dbDelete rest n

/-- State of a `ChromaDBManager`: the current collection name plus the
backing database.  In the source the manager also holds a live handle
`self.collection`; every method of the class keeps that handle pointing at
the collection registered under `self.collection_name`, so the handle is
represented by the name. -/
structure ManagerState where
  collectionName : String
  db : DB
  deriving DecidableEq

/-- The entries of the manager's current collection. -/
def currentEntries (st : ManagerState) : List Entry :=
  (dbLookup st.db st.collectionName).getD []

/-- Modelled from the spec: chromadb's `Collection.count` returns the
current collection size. -/
def chromaCount (c : List Entry) : Nat := c.length

/-- Pair up the per-chunk argument lists of an insertion into entries
(stopping at the shortest list; the spec's precondition makes all four the
same length). -/
def mkEntries : List String → List String → List (List ℚ) → List Meta → List Entry
  | i :: is, d :: ds, e :: es, m :: ms =>
      { id := i, document := d, embedding := e, metadata := m } :: mkEntries is ds es ms
  | _, _, _, _ => []

/-- Modelled from the spec: chromadb's `Collection.add` — a durable write
appending the new chunks in order, so the collection size increases by the
number of chunks. -/
def chromaAdd (c : List Entry) (ids documents : List String)
    (embeddings : List (List ℚ)) (metadatas : List Meta) : List Entry :=
  c ++ mkEntries ids documents embeddings metadatas

/-- Modelled from the spec: chromadb's `Collection.delete` — removes the
chunks whose id is listed; absent ids are a no-op, never an error. -/
def chromaDelete (c : List Entry) (ids : List String) : List Entry :=
  c.filter (fun e => !(ids.contains e.id))

/-- Modelled from the spec: chromadb's `Collection.update` — replaces the
metadata of existing ids; an unknown id signals NotFoundError. -/
def chromaUpdate (c : List Entry) (ids : List String) (metadatas : List Meta) :
    Except StoreError (List Entry) :=
  if ids.all (fun i => c.any (fun e => e.id == i)) then
    Except.ok (c.map (fun e =>
      match (ids.zip metadatas).find? (fun p => p.1 == e.id) with
      | some p => { e with metadata := p.2 }
      | none => e))
  else
    Except.error StoreError.notFoundError

/-- Squared Euclidean distance between two vectors (chromadb's default
`l2` space), over the common prefix of the two coordinate lists. -/
def sqDist (u v : List ℚ) : ℚ := ((u.zip v).map (fun p => (p.1 - p.2) ^ 2)).sum

/-- One query result: the matched entry's data, its distance to the query
embedding, and its insertion index (position in the collection), the
latter recorded so the tie-breaking order is expressible. -/
structure Hit where
  index : Nat
  id : String
  document : String
  metadata : Meta
  distance : ℚ
  deriving DecidableEq

/-- Ranking order on query results: strictly smaller distance first; at
equal distance the earlier-inserted entry (smaller insertion index)
first. -/
def hitLE (a b : Hit) : Prop :=
  a.distance < b.distance ∨ (a.distance = b.distance ∧ a.index ≤ b.index)

instance : DecidableRel hitLE := fun a b =>
  decidable_of_iff (a.distance < b.distance ∨ (a.distance = b.distance ∧ a.index ≤ b.index))
    Iff.rfl

instance : IsTotal Hit hitLE where
  total a b := by
    rcases lt_trichotomy a.distance b.distance with h | h | h
    · exact Or.inl (Or.inl h)
    · rcases Nat.le_total a.index b.index with hi | hi
      · exact Or.inl (Or.inr ⟨h, hi⟩)
      · exact Or.inr (Or.inr ⟨h.symm, hi⟩)
    · exact Or.inr (Or.inl h)

instance : IsTrans Hit hitLE where
  trans a b c hab hbc := by
    rcases hab with hab | ⟨hab, hia⟩
    · rcases hbc with hbc | ⟨hbc, _⟩
      · exact Or.inl (hab.trans hbc)
      · exact Or.inl (hab.trans_eq hbc)
    · rcases hbc with hbc | ⟨hbc, hib⟩
      · exact Or.inl (hab.trans_lt hbc)
      · exact Or.inr ⟨hab.trans hbc, hia.trans hib⟩

/-- Modelled from the spec: chromadb's `Collection.query` — ranks all
stored chunks by distance to the query embedding (ascending, ties broken
by insertion order) and returns the first `k`; when fewer than `k` chunks
are stored all of them are returned, never an error. -/
def chromaQuery (c : List Entry) (q : List ℚ) (k : Nat) : List Hit :=
  (List.insertionSort hitLE (c.enum.map (fun p =>
    { index := p.1, id := p.2.id, document := p.2.document,
      metadata := p.2.metadata, distance := sqDist q p.2.embedding }))).take k

/-- Keyword parameters accepted by chromadb's `Collection.add`. -/
def collectionAddParams : List String :=
  ["ids", "embeddings", "metadatas", "documents", "images", "uris"]

/-- Keyword argument names actually used at the `Collection.add` call site
inside `add_chunks` (chroma_client.py line 59): `ndocuments`,
`nembeddings`, `nmetadatas`, `nids`. -/
def addChunksCallKeywords : List String :=
  ["ndocuments", "nembeddings", "nmetadatas", "nids"]

/-- Auto-generated chunk ids `chunk_(start) ... chunk_(start+len-1)`, as
computed by `add_chunks` when the caller omits ids. -/
def autoIds (start len : Nat) : List String :=
  (List.range len).map (fun i => "chunk_" ++ Nat.repr (start + i))

namespace ChromaDBManager

/-- Embedding of `ChromaDBManager.add_chunks`.  When `ids` is omitted it
generates sequential ids anchored at the current collection size, then
performs the `Collection.add` call.  The call site passes the keyword
arguments listed in `addChunksCallKeywords`; since Python raises TypeError
for a keyword that is not a parameter of the callee, the call succeeds
only if every keyword is accepted — which fails here, before any write. -/
def addChunks (st : ManagerState) (chunks : List String)
    (embeddings : List (List ℚ)) (metadatas : Option (List Meta))
    (ids : Option (List String)) : Except StoreError ManagerState :=
  let genIds := match ids with
    | none => autoIds (chromaCount (currentEntries st)) chunks.length
    | some l => l
  let newEntries := chromaAdd (currentEntries st) genIds chunks embeddings
    (metadatas.getD (chunks.map (fun _ => [])))
  if addChunksCallKeywords.all (fun kw => collectionAddParams.contains kw) then
    Except.ok { st with db := dbSet st.db st.collectionName newEntries }
  else
    Except.error StoreError.typeError

/-- Modelled from the spec: the insertion `add_chunks` documents — the
same id generation followed by `Collection.add` with its accepted keywords
`documents`/`embeddings`/`metadatas`/`ids`.  This is what the claims about
successful insertion are measured against. -/
def addChunksIntended (st : ManagerState) (chunks : List String)
    (embeddings : List (List ℚ)) (metadatas : Option (List Meta))
    (ids : Option (List String)) : ManagerState :=
  let genIds := match ids with
    | none => autoIds (chromaCount (currentEntries st)) chunks.length
    | some l => l
  let newEntries := chromaAdd (currentEntries st) genIds chunks embeddings
    (metadatas.getD (chunks.map (fun _ => [])))
  { st with db := dbSet st.db st.collectionName newEntries }

/-- Embedding of `query_similar` (filters `where`/`where_document`
omitted: the wrapper passes them through unchanged and the claims quantify
over filter-free queries). -/
def querySimilar (st : ManagerState) (queryEmbedding : List ℚ)
    (nResults : Nat) : List Hit :=
  chromaQuery (currentEntries st) queryEmbedding nResults

/-- Embedding of `delete_chunks`. -/
def deleteChunks (st : ManagerState) (ids : List String) : ManagerState :=
  { st with db := dbSet st.db st.collectionName (chromaDelete (currentEntries st) ids) }

/-- Embedding of `count_chunks`. -/
def countChunks (st : ManagerState) : Nat := chromaCount (currentEntries st)

/-- Embedding of `reset_collection`: delete the current collection, then
get-or-create it again (so it is recreated empty). -/
def resetCollection (st : ManagerState) : ManagerState :=
  { st with db := getOrCreate (dbDelete st.db st.collectionName) st.collectionName }

/-- Embedding of `list_collections`. -/
def listCollections (st : ManagerState) : List String := st.db.map (fun p => p.1)

/-- Embedding of `switch_collection`: repoint the manager at the named
collection, get-or-creating it. -/
def switchCollection (st : ManagerState) (name : String) : ManagerState :=
  { collectionName := name, db := getOrCreate st.db name }

/-- Embedding of `update_chunk_metadata`. -/
def updateChunkMetadata (st : ManagerState) (ids : List String)
    (metadatas : List Meta) : Except StoreError ManagerState :=
  (chromaUpdate (currentEntries st) ids metadatas).map
    (fun es => { st with db := dbSet st.db st.collectionName es })

end ChromaDBManager

/-- Filesystem paths as lists of components; a filesystem is the list of
existing directories. -/
abbrev FsPath := List String

/-- Existing directories of the modelled filesystem. -/
abbrev FileSystem := List FsPath

/-- Nonempty prefixes of a path, shortest first. -/
def pathPrefixes (p : FsPath) : List FsPath :=
  (List.range p.length).map (fun i => p.take (i + 1))

/-- Modelled from the spec: `Path.mkdir(parents=True, exist_ok=True)` —
creates the directory together with any missing parents; directories that
already exist are left alone and are not an error. -/
def mkdirParents (fs : FileSystem) (p : FsPath) : FileSystem :=
  fs ++ (pathPrefixes p).filter (fun q => !(fs.contains q))

/-- Result of constructing a manager: the filesystem after the mkdir and
the manager's state. -/
structure InitResult where
  fs : FileSystem
  state : ManagerState
  deriving DecidableEq

/-- Embedding of `ChromaDBManager.__init__`: create the persistence
directory (with parents, tolerating existence), open the persistent client
on the database found there, and get-or-create the named collection. -/
def chromaInit (fs : FileSystem) (db : DB) (persistDirectory : FsPath)
    (collectionName : String) : InitResult :=
  { fs := mkdirParents fs persistDirectory,
    state := { collectionName := collectionName, db := getOrCreate db collectionName } }

/-- Errors of the chunking layer: `chunkingError` when a document cannot
be segmented under the configured constraints and the strategy is
configured to fail strictly; `capabilityError` when the selected strategy
needs an Embedder capability that is not provided. -/
inductive ChunkError where
  | chunkingError
  | capabilityError
  deriving DecidableEq

/-- A produced chunk: its text and, for late chunking, the embedding
pooled from the token-level vectors of its span. -/
structure Chunk where
  text : String
  embedding : Option (List ℚ)
  deriving DecidableEq

/-- Chunking configuration: minimum and maximum chunk character length,
similarity threshold for merging, and whether an unsegmentable document is
a strict failure (instead of degrading to a single whole-document
chunk). -/
structure ChunkConfig where
  minSize : Nat
  maxSize : Nat
  threshold : ℚ
  strict : Bool
  deriving DecidableEq

/-- Modelled from the spec: the Embedder collaborator — `embed` maps text
to a vector; `tokenVectors` is the optional per-unit (token-level)
capability late chunking needs, absent when unsupported. -/
structure Embedder where
  embed : String → List ℚ
  tokenVectors : Option (String → List (List ℚ))

/-- Inner product of two vectors over their common prefix, used as the
similarity measure between embeddings (kept exact over `ℚ`). -/
def dot (u v : List ℚ) : ℚ := ((u.zip v).map (fun p => p.1 * p.2)).sum

/-- Componentwise sum of two vectors. -/
def vecAdd (u v : List ℚ) : List ℚ := List.zipWith (· + ·) u v

/-- Componentwise sum of a list of vectors. -/
def vecSum : List (List ℚ) → List ℚ
  | [] => []
  | [v] => v
  | v :: vs => vecAdd v (vecSum vs)

/-- Centroid (componentwise mean) of a list of vectors. -/
def centroid (vs : List (List ℚ)) : List ℚ :=
  (vecSum vs).map (fun x => x / (vs.length : ℚ))

/-- Modelled from the spec: the context-aware merge loop — keep absorbing
the next unit into the running chunk while the similarity between the
running chunk's centroid embedding and the next unit's embedding stays at
or above the threshold; a unit whose addition would exceed the maximum
size starts a new chunk even if similarity is high. -/
def mergeLoop (embed : String → List ℚ) (threshold : ℚ) (maxSize : Nat) :
    String → List (List ℚ) → List String → List String
  | cur, _, [] => [cur]
  | cur, curVecs, u :: us =>
    if cur.length + u.length ≤ maxSize ∧ threshold ≤ dot (centroid curVecs) (embed u) then
      mergeLoop embed threshold maxSize (cur ++ u) (curVecs ++ [embed u]) us
    else
      cur :: mergeLoop embed threshold maxSize u [embed u] us

/-- Modelled from the spec: `cunk_document` for the context-aware
strategy (the source method is an empty stub).  The document is segmented
into candidate atomic units (sentence pieces split on full stops),
adjacent units are merged by embedding similarity subject to the size cap;
a document that cannot be segmented under the minimum size degrades to a
single whole-document chunk unless configured to fail strictly. -/
def contextAwareChunk (cfg : ChunkConfig) (embed : String → List ℚ)
    (doc : String) : Except ChunkError (List Chunk) :=
  if doc.length < cfg.minSize then
    if cfg.strict then Except.error ChunkError.chunkingError
    else Except.ok [{ text := doc, embedding := none }]
  else
    match (doc.splitOn ".").filter (fun s => !s.isEmpty) with
    | [] => Except.ok [{ text := doc, embedding := none }]
    | u :: us =>
      Except.ok ((mergeLoop embed cfg.threshold cfg.maxSize u [embed u] us).map
        (fun t => { text := t, embedding := none }))

/-- A configured late chunking strategy: the chunking configuration plus
the embedder's per-unit vector capability, captured at configuration
time. -/
structure LateChunkingCfg where
  cfg : ChunkConfig
  tokenVectors : String → List (List ℚ)

/-- Modelled from the spec: configuring the late chunking strategy (the
source class is an empty stub) — the Embedder's per-unit vector capability
is demanded here, at configuration time, signalling CapabilityError when
absent; a successfully configured strategy captures the capability. -/
def LateChunking.configure (e : Embedder) (cfg : ChunkConfig) :
    Except ChunkError LateChunkingCfg :=
  match e.tokenVectors with
  | some tv => Except.ok { cfg := cfg, tokenVectors := tv }
  | none => Except.error ChunkError.capabilityError

/-- Split a character list into consecutive pieces of `width + 1`
characters (the extra one guarantees progress); `fuel` bounds the
recursion and is instantiated with the document length. -/
def chunksOfChars : Nat → Nat → List Char → List (List Char)
  | _, _, [] => []
  | 0, _, l => [l]
  | fuel + 1, width, l => l.take (width + 1) :: chunksOfChars fuel width (l.drop (width + 1))

/-- Pool the token-level vectors over each piece's span: piece `p`
starting at character offset `off` receives the centroid of the token
vectors at positions `off ... off + p.length - 1`. -/
def poolPieces (tvs : List (List ℚ)) : Nat → List (List Char) → List Chunk
  | _, [] => []
  | off, p :: ps =>
    { text := p.asString, embedding := some (centroid ((tvs.drop off).take p.length)) } ::
      poolPieces tvs (off + p.length) ps

/-- Modelled from the spec: `cunk_document` for the late strategy (the
source method is an empty stub).  The whole document is embedded first to
obtain token-level contextualized vectors, the text is split afterwards
into spans within the maximum size, and each chunk's embedding is pooled
(mean) from the token vectors falling inside its span; an unsegmentable
document degrades to a single whole-document chunk unless configured to
fail strictly. -/
def lateChunk (lc : LateChunkingCfg) (doc : String) : Except ChunkError (List Chunk) :=
  let tvs := lc.tokenVectors doc
  if doc.length < lc.cfg.minSize then
    if lc.cfg.strict then Except.error ChunkError.chunkingError
    else Except.ok [{ text := doc, embedding := some (centroid tvs) }]
  else
    Except.ok (poolPieces tvs 0 (chunksOfChars doc.length lc.cfg.maxSize doc.toList))

/-- A manager freshly constructed with the default arguments on an empty
filesystem and empty database. -/
def exInit : ManagerState :=
  (chromaInit [] [] ["chroma_db"] "document_chunks").state

/-- The fresh manager after the intended insertion of two chunks. -/
def exPopulated : ManagerState :=
  ChromaDBManager.addChunksIntended exInit ["alpha", "beta"] [[1], [2]] none none

/-- A concrete chunking configuration used by witnesses. -/
def exCfg : ChunkConfig := { minSize := 2, maxSize := 10, threshold := 0, strict := false }

/-- A concrete embedding function used by witnesses. -/
def exEmbed : String → List ℚ := fun _ => [1]

/-- A concrete configured late chunking strategy used by witnesses. -/
def exLate : LateChunkingCfg := { cfg := exCfg, tokenVectors := fun _ => [[1]] }

/-- An embedder without the per-unit vector capability. -/
def exNoCapEmbedder : Embedder := { embed := fun _ => [1], tokenVectors := none }

/-- One `add` call of an id-omitting history: the chunks, their embeddings
and optional metadata (ids omitted, so they are auto-generated). -/
structure AddBatch where
  chunks : List String
  embeddings : List (List ℚ)
  metadatas : Option (List Meta)

/-- Run a history of id-omitting intended `add` calls. -/
def runAdds (st : ManagerState) : List AddBatch → ManagerState
  | [] => st
  | b :: bs =>
      runAdds (ChromaDBManager.addChunksIntended st b.chunks b.embeddings b.metadatas none) bs

/-- Run a history of `delete` calls. -/
def runDeletes (st : ManagerState) : List (List String) → ManagerState
  | [] => st
  | ids :: rest => runDeletes (ChromaDBManager.deleteChunks st ids) rest

/-- The current collection's ids are exactly the auto-generated sequence
`chunk_0 ... chunk_(count-1)` — the shape every add-only history preserves. -/
def hasSequentialIds (st : ManagerState) : Prop :=
  (currentEntries st).map Entry.id = autoIds 0 (currentEntries st).length

/-! Helper lemmas about the database association list. -/

theorem dbLookup_dbSet_self (db : DB) (n : String) (es : List Entry) :
    dbLookup (dbSet db n es) n = some es := by
  induction db with
  | nil => simp [dbSet, dbLookup]
  | cons p rest ih =>
    by_cases h : p.1 == n
    · simp [dbSet, dbLookup, h]
    · simp only [dbSet, dbLookup, h, Bool.false_eq_true, if_false, cond_false]
      simpa [dbLookup, h] using ih

theorem currentEntries_withDb (st : ManagerState) (es : List Entry) :
    currentEntries { st with db := dbSet st.db st.collectionName es } = es := by
  simp [currentEntries, dbLookup_dbSet_self]

theorem dbSet_dbSet (db : DB) (n : String) (es es' : List Entry) :
    dbSet (dbSet db n es) n es' = dbSet db n es' := by
  induction db with
  | nil => simp [dbSet]
  | cons p rest ih =>
    by_cases h : p.1 == n
    · simp [dbSet, h]
    · simp [dbSet, h, ih]

theorem dbLookup_append_of_none (db l : DB) (n : String)
    (h : dbLookup db n = none) : dbLookup (db ++ l) n = dbLookup l n := by
  induction db with
  | nil => simp
  | cons p rest ih =>
    by_cases hp : p.1 == n
    · simp [dbLookup, hp] at h
    · simp only [dbLookup, hp] at h ⊢
      simp only [List.cons_append, dbLookup, hp, Bool.false_eq_true, if_false]
      exact ih h

theorem dbLookup_append_single_ne (db : DB) (n c : String) (es : List Entry)
    (h : c ≠ n) : dbLookup (db ++ [(n, es)]) c = dbLookup db c := by
  induction db with
  | nil =>
    have : (n == c) = false := beq_eq_false_iff_ne.mpr (Ne.symm h)
    simp [dbLookup, this]
  | cons p rest ih =>
    by_cases hp : p.1 == c
    · simp [dbLookup, hp]
    · simp [dbLookup, hp, ih]

theorem dbLookup_mem_listCollections (db : DB) (n : String) (es : List Entry)
    (h : dbLookup db n = some es) : n ∈ db.map (fun p => p.1) := by
  induction db with
  | nil => simp [dbLookup] at h
  | cons p rest ih =>
    by_cases hp : p.1 == n
    · have : p.1 = n := by simpa using hp
      simp [this]
    · simp only [dbLookup, hp, Bool.false_eq_true, if_false] at h
      simp [ih h]

/-! Injectivity of the decimal representation (`Nat.repr`) underlying the
auto-generated chunk ids. -/

theorem digitChar_inj_lt_ten :
    ∀ a < 10, ∀ b < 10, Nat.digitChar a = Nat.digitChar b → a = b := by decide

theorem toDigitsCore_eq_digits :
    ∀ (f n : Nat) (ds : List Char), 0 < n → n < 10 ^ f →
      Nat.toDigitsCore 10 f n ds =
        ((Nat.digits 10 n).map Nat.digitChar).reverse ++ ds := by
  intro f
  induction f with
  | zero =>
    intro n ds hn hlt
    simp at hlt
    omega
  | succ f ih =>
    intro n ds hn hlt
    rw [Nat.toDigitsCore]
    rw [Nat.digits_def' (by norm_num : (1 : ℕ) < 10) hn]
    by_cases hdiv : n / 10 = 0
    · have : Nat.digits 10 (n / 10) = [] := by rw [hdiv]; simp
      simp [hdiv, this]
    · have hpos : 0 < n / 10 := Nat.pos_of_ne_zero hdiv
      have hbound : n / 10 < 10 ^ f := by
        apply (Nat.div_lt_iff_lt_mul (by norm_num : 0 < 10)).mpr
        calc n < 10 ^ (f + 1) := hlt
        _ = 10 ^ f * 10 := by rw [pow_succ]
      simp only [hdiv, if_false]
      rw [ih (n / 10) (Nat.digitChar (n % 10) :: ds) hpos hbound]
      simp

theorem toDigits_eq_digits (n : Nat) (hn : 0 < n) :
    Nat.toDigits 10 n = ((Nat.digits 10 n).map Nat.digitChar).reverse := by
  have hlt : n < 10 ^ (n + 1) :=
    (Nat.lt_pow_self (by norm_num : 1 < 10) n).trans_le
      (Nat.pow_le_pow_right (by norm_num) (Nat.le_succ n))
  rw [Nat.toDigits, toDigitsCore_eq_digits (n + 1) n [] hn hlt, List.append_nil]

theorem map_digitChar_inj :
    ∀ (l1 l2 : List Nat), (∀ d ∈ l1, d < 10) → (∀ d ∈ l2, d < 10) →
      l1.map Nat.digitChar = l2.map Nat.digitChar → l1 = l2 := by
  intro l1
  induction l1 with
  | nil =>
    intro l2 _ _ h
    cases l2 with
    | nil => rfl
    | cons b t => simp at h
  | cons a t1 ih =>
    intro l2 h1 h2 h
    cases l2 with
    | nil => simp at h
    | cons b t2 =>
      simp only [List.map_cons, List.cons.injEq] at h
      have ha : a < 10 := h1 a (List.mem_cons_self a t1)
      have hb : b < 10 := h2 b (List.mem_cons_self b t2)
      have hab : a = b := digitChar_inj_lt_ten a ha b hb h.1
      subst hab
      have ht : t1 = t2 :=
        ih t2 (fun d hd => h1 d (List.mem_cons_of_mem _ hd))
          (fun d hd => h2 d (List.mem_cons_of_mem _ hd)) h.2
      rw [ht]

theorem toDigits_ten_inj (m n : Nat) (h : Nat.toDigits 10 m = Nat.toDigits 10 n) :
    m = n := by
  rcases Nat.eq_zero_or_pos m with hm | hm
  · rcases Nat.eq_zero_or_pos n with hn | hn
    · rw [hm, hn]
    · exfalso
      subst hm
      rw [toDigits_eq_digits n hn] at h
      have h0 : Nat.toDigits 10 0 = ['0'] := by rfl
      rw [h0] at h
      have hmap : (Nat.digits 10 n).map Nat.digitChar = ['0'] := by
        have := congrArg List.reverse h
        simpa using this.symm
      have hd : Nat.digits 10 n = [0] := by
        apply map_digitChar_inj (Nat.digits 10 n) [0]
          (fun d hd => Nat.digits_lt_base (by norm_num) hd) (by simp)
        simpa using hmap
      have hzero : n = 0 := by
        have hod := Nat.ofDigits_digits 10 n
        rw [hd] at hod
        simpa [Nat.ofDigits] using hod.symm
      omega
  · rcases Nat.eq_zero_or_pos n with hn | hn
    · exfalso
      subst hn
      rw [toDigits_eq_digits m hm] at h
      have h0 : Nat.toDigits 10 0 = ['0'] := by rfl
      rw [h0] at h
      have hmap : (Nat.digits 10 m).map Nat.digitChar = ['0'] := by
        have := congrArg List.reverse h
        simpa using this
      have hd : Nat.digits 10 m = [0] := by
        apply map_digitChar_inj (Nat.digits 10 m) [0]
          (fun d hd => Nat.digits_lt_base (by norm_num) hd) (by simp)
        simpa using hmap
      have hzero : m = 0 := by
        have hod := Nat.ofDigits_digits 10 m
        rw [hd] at hod
        simpa [Nat.ofDigits] using hod.symm
      omega
    · rw [toDigits_eq_digits m hm, toDigits_eq_digits n hn] at h
      have hmap : (Nat.digits 10 m).map Nat.digitChar = (Nat.digits 10 n).map Nat.digitChar := by
        have := congrArg List.reverse h
        simpa using this
      have hd : Nat.digits 10 m = Nat.digits 10 n :=
        map_digitChar_inj _ _ (fun d hd => Nat.digits_lt_base (by norm_num) hd)
          (fun d hd => Nat.digits_lt_base (by norm_num) hd) hmap
      calc m = Nat.ofDigits 10 (Nat.digits 10 m) := (Nat.ofDigits_digits 10 m).symm
      _ = Nat.ofDigits 10 (Nat.digits 10 n) := by rw [hd]
      _ = n := Nat.ofDigits_digits 10 n

theorem natRepr_inj (m n : Nat) (h : Nat.repr m = Nat.repr n) : m = n := by
  apply toDigits_ten_inj
  have := congrArg String.data h
  simpa [Nat.repr, List.asString] using this

theorem autoId_inj (i j : Nat)
    (h : "chunk_" ++ Nat.repr i = "chunk_" ++ Nat.repr j) : i = j := by
  apply natRepr_inj
  apply String.ext
  have hd := congrArg String.data h
  simp only [String.data_append] at hd
  exact List.append_cancel_left hd

/-! Lemmas about the auto-generated id sequence and id-omitting histories. -/

theorem autoIds_length (s l : Nat) : (autoIds s l).length = l := by
  simp [autoIds]

theorem autoIds_take (s l k : Nat) : (autoIds s l).take k = autoIds s (min k l) := by
  simp [autoIds, ← List.map_take, List.take_range]

theorem autoIds_append (n k : Nat) : autoIds 0 n ++ autoIds n k = autoIds 0 (n + k) := by
  simp only [autoIds, List.range_add, List.map_append, List.map_map]
  congr 1
  simp [Function.comp]

theorem mkEntries_ids :
    ∀ (ids docs : List String) (embs : List (List ℚ)) (metas : List Meta),
      ∃ k, k ≤ ids.length ∧
        (mkEntries ids docs embs metas).map Entry.id = ids.take k ∧
        (mkEntries ids docs embs metas).length = k := by
  intro ids
  induction ids with
  | nil => intro docs embs metas; exact ⟨0, by simp, by simp [mkEntries], by simp [mkEntries]⟩
  | cons i is ih =>
    intro docs embs metas
    cases docs with
    | nil => exact ⟨0, by simp, by simp [mkEntries], by simp [mkEntries]⟩
    | cons d ds =>
      cases embs with
      | nil => exact ⟨0, by simp, by simp [mkEntries], by simp [mkEntries]⟩
      | cons e es =>
        cases metas with
        | nil => exact ⟨0, by simp, by simp [mkEntries], by simp [mkEntries]⟩
        | cons m ms =>
          obtain ⟨k, hk, hmap, hlen⟩ := ih ds es ms
          refine ⟨k + 1, by simpa using hk, ?_, ?_⟩
          · simp [mkEntries, hmap]
          · simp [mkEntries, hlen]

theorem addChunksIntended_preserves (st : ManagerState) (chunks : List String)
    (embs : List (List ℚ)) (metas : Option (List Meta))
    (h : hasSequentialIds st) :
    hasSequentialIds (ChromaDBManager.addChunksIntended st chunks embs metas none) := by
  unfold hasSequentialIds at h ⊢
  unfold ChromaDBManager.addChunksIntended
  simp only
  rw [currentEntries_withDb]
  unfold chromaAdd chromaCount
  obtain ⟨k, hk, hmap, hlen⟩ :=
    mkEntries_ids (autoIds (currentEntries st).length chunks.length) chunks embs
      (metas.getD (chunks.map (fun _ => [])))
  rw [autoIds_length] at hk
  rw [List.map_append, List.length_append, h, hmap, hlen, autoIds_take,
    Nat.min_eq_left hk, autoIds_append]

theorem runAdds_preserves (bs : List AddBatch) :
    ∀ st : ManagerState, hasSequentialIds st → hasSequentialIds (runAdds st bs) := by
  induction bs with
  | nil => intro st h; exact h
  | cons b bs ih =>
    intro st h
    exact ih _ (addChunksIntended_preserves st b.chunks b.embeddings b.metadatas h)

theorem hasSequentialIds_nodup (st : ManagerState) (h : hasSequentialIds st) :
    ((currentEntries st).map Entry.id).Nodup := by
  rw [h]
  apply List.Nodup.map _ (List.nodup_range _)
  intro i j hij
  exact autoId_inj i j (by simpa using hij)

theorem deleteChunks_keeps_nodup (st : ManagerState) (ids : List String)
    (h : ((currentEntries st).map Entry.id).Nodup) :
    ((currentEntries (ChromaDBManager.deleteChunks st ids)).map Entry.id).Nodup := by
  unfold ChromaDBManager.deleteChunks
  rw [currentEntries_withDb]
  exact h.sublist ((List.filter_sublist _).map Entry.id)

theorem runDeletes_keeps_nodup (ds : List (List String)) :
    ∀ st : ManagerState, ((currentEntries st).map Entry.id).Nodup →
      ((currentEntries (runDeletes st ds)).map Entry.id).Nodup := by
  induction ds with
  | nil => intro st h; exact h
  | cons ids rest ih =>
    intro st h
    exact ih _ (deleteChunks_keeps_nodup st ids h)

theorem find_zip_nodup :
    ∀ (ids : List String) (metas : List Meta), ids.Nodup →
      ∀ p1 : String, ∀ p2 : Meta, (p1, p2) ∈ ids.zip metas →
        (ids.zip metas).find? (fun q => q.1 == p1) = some (p1, p2) := by
  intro ids
  induction ids with
  | nil => intro metas _ p1 p2 hp; simp at hp
  | cons i is ih =>
    intro metas hnd p1 p2 hp
    cases metas with
    | nil => simp at hp
    | cons m ms =>
      simp only [List.zip_cons_cons] at hp ⊢
      rcases List.mem_cons.mp hp with h | h
      · rw [Prod.mk.injEq] at h
        obtain ⟨h1, h2⟩ := h
        subst h1; subst h2
        rw [List.find?_cons_of_pos _ (by simp)]
      · have hp1 : p1 ∈ is := (List.of_mem_zip h).1
        have hne : i ≠ p1 := fun hh => (List.nodup_cons.mp hnd).1 (hh ▸ hp1)
        rw [List.find?_cons_of_neg _ (by simpa using hne)]
        exact ih ms (List.nodup_cons.mp hnd).2 p1 p2 h

theorem chromaDelete_idem (c : List Entry) (ids : List String) :
    chromaDelete (chromaDelete c ids) ids = chromaDelete c ids := by
  unfold chromaDelete
  rw [List.filter_filter]
  simp [Bool.and_self]

/-! Claim theorems. -/

/-- C1 (code bug): every call to `add_chunks` raises TypeError — the
`Collection.add` call site uses keyword names (`ndocuments`,
`nembeddings`, `nmetadatas`, `nids`) that are not parameters of
`Collection.add` — so no chunks are ever inserted and the collection size
never increases; the insertion the docstring intends (second and third
conjuncts, shown on the insertion modelled with the accepted keywords)
would store the chunk under the auto-generated id `chunk_0` and grow the
collection by one. -/
theorem add_chunks_always_raises :
    (∀ (st : ManagerState) (chunks : List String) (embeddings : List (List ℚ))
        (metadatas : Option (List Meta)) (ids : Option (List String)),
      ChromaDBManager.addChunks st chunks embeddings metadatas ids =
        Except.error StoreError.typeError) ∧
    (currentEntries (ChromaDBManager.addChunksIntended exInit ["hello"] [[1]] none none)).map
        Entry.id = ["chunk_0"] ∧
    ChromaDBManager.countChunks
      (ChromaDBManager.addChunksIntended exInit ["hello"] [[1]] none none) = 1 :=
  ⟨fun _ _ _ _ _ => rfl, by decide, by decide⟩

/-- C4 (code bug): after `reset_collection` the count is `0`, but the
subsequent `add` does not succeed — it raises TypeError like every
`add_chunks` call (same keyword slip); under the insertion the docstring
intends, the auto-generated ids would indeed restart from `chunk_0` on the
reset collection (third conjunct). -/
theorem reset_then_add_fails :
    ChromaDBManager.countChunks (ChromaDBManager.resetCollection exPopulated) = 0 ∧
    ChromaDBManager.addChunks (ChromaDBManager.resetCollection exPopulated) ["gamma"] [[3]]
        none none = Except.error StoreError.typeError ∧
    (currentEntries (ChromaDBManager.addChunksIntended
        (ChromaDBManager.resetCollection exPopulated) ["gamma"] [[3]] none none)).map Entry.id
      = ["chunk_0"] :=
  ⟨by decide, rfl, by decide⟩

/-- C5 counterexample: under the intended insertion semantics, an add that
follows a delete reuses a live id — insert `alpha`, `beta` (ids `chunk_0`,
`chunk_1`), delete `chunk_0`, then insert `gamma`: the new chunk is again
assigned `chunk_1` (the collection's size at insertion time is 1), so the
stored ids are not pairwise distinct. -/
theorem chunk_id_collision_after_delete :
    ¬ (((currentEntries (ChromaDBManager.addChunksIntended
        (ChromaDBManager.deleteChunks exPopulated ["chunk_0"]) ["gamma"] [[3]] none none)).map
          Entry.id).Nodup) := by decide

/-- C5 (amended): chunk ids are unique provided no add follows a delete —
for every history made of id-omitting adds followed by deletes, started
from a collection whose ids are the auto-generated sequence (in particular
a fresh or reset collection), no two stored chunks carry the same id. -/
theorem chunk_ids_nodup_without_adds_after_deletes (st : ManagerState)
    (bs : List AddBatch) (ds : List (List String)) (h : hasSequentialIds st) :
    ((currentEntries (runDeletes (runAdds st bs) ds)).map Entry.id).Nodup :=
  runDeletes_keeps_nodup ds _ (hasSequentialIds_nodup _ (runAdds_preserves bs st h))

/-- C5 witness: the amended theorem applied to the fresh manager, one add
of two chunks and one delete. -/
theorem chunk_ids_nodup_witness :
    ((currentEntries (runDeletes (runAdds exInit
        [{ chunks := ["alpha", "beta"], embeddings := [[1], [2]], metadatas := none }])
        [["chunk_0"]])).map Entry.id).Nodup :=
  chunk_ids_nodup_without_adds_after_deletes exInit
    [{ chunks := ["alpha", "beta"], embeddings := [[1], [2]], metadatas := none }]
    [["chunk_0"]] (by unfold hasSequentialIds; decide)

/-- C2: `query_similar` returns `min k count` results — hence at most `k`,
and exactly `count()` when `k` exceeds the collection size — and the
result list is sorted by the ranking order `hitLE`: ascending distance,
ties broken by insertion order.  The function is total, so an
under-populated collection can never raise. -/
theorem query_similar_ranked (st : ManagerState) (q : List ℚ) (k : Nat) :
    (ChromaDBManager.querySimilar st q k).length =
      min k (ChromaDBManager.countChunks st) ∧
    List.Sorted hitLE (ChromaDBManager.querySimilar st q k) := by
  constructor
  · simp [ChromaDBManager.querySimilar, chromaQuery, ChromaDBManager.countChunks,
      chromaCount, List.length_insertionSort]
  · exact List.Pairwise.sublist (List.take_sublist _ _)
      (List.sorted_insertionSort hitLE _)

/-- C6: `update_chunk_metadata` signals NotFoundError whenever some
requested id matches no stored chunk; when every requested id exists the
update succeeds, keeps the collection name and size, and replaces the
metadata of each requested id with the paired new metadata. -/
theorem update_chunk_metadata_contract (st : ManagerState) (ids : List String)
    (metadatas : List Meta) :
    ((∃ i ∈ ids, ∀ e ∈ currentEntries st, e.id ≠ i) →
      ChromaDBManager.updateChunkMetadata st ids metadatas =
        Except.error StoreError.notFoundError) ∧
    ((∀ i ∈ ids, ∃ e ∈ currentEntries st, e.id = i) →
      ∃ st', ChromaDBManager.updateChunkMetadata st ids metadatas = Except.ok st' ∧
        st'.collectionName = st.collectionName ∧
        ChromaDBManager.countChunks st' = ChromaDBManager.countChunks st ∧
        (ids.Nodup → ∀ p1 p2, (p1, p2) ∈ ids.zip metadatas →
          ∀ e' ∈ currentEntries st', e'.id = p1 → e'.metadata = p2)) := by
  constructor
  · rintro ⟨i, hi, hne⟩
    have hcond : (ids.all (fun i => (currentEntries st).any (fun e => e.id == i))) = false := by
      rw [List.all_eq_false]
      refine ⟨i, hi, ?_⟩
      rw [List.any_eq_true]
      rintro ⟨e, he, hbeq⟩
      exact hne e he (by simpa using hbeq)
    simp [ChromaDBManager.updateChunkMetadata, chromaUpdate, hcond, Except.map]
  · intro hall
    have hcond : (ids.all (fun i => (currentEntries st).any (fun e => e.id == i))) = true := by
      rw [List.all_eq_true]
      intro i hi
      obtain ⟨e, he, heq⟩ := hall i hi
      rw [List.any_eq_true]
      exact ⟨e, he, by simpa using heq⟩
    refine ⟨{ st with db := dbSet st.db st.collectionName ((currentEntries st).map (fun e => match (ids.zip metadatas).find? (fun p => p.1 == e.id) with | some p => { e with metadata := p.2 } | none => e)) }, ?_, rfl, ?_, ?_⟩
    · simp [ChromaDBManager.updateChunkMetadata, chromaUpdate, hcond, Except.map]
    · simp [ChromaDBManager.countChunks, chromaCount, currentEntries_withDb]
    · intro hnd p1 p2 hp e' he' hid
      rw [currentEntries_withDb] at he'
      obtain ⟨e, he, hupd⟩ := List.mem_map.mp he'
      have hids : e.id = e'.id := by
        rw [← hupd]
        cases hfind : (ids.zip metadatas).find? (fun q => q.1 == e.id) <;> simp [hfind]
      have hfind : (ids.zip metadatas).find? (fun q => q.1 == e.id) = some (p1, p2) := by
        rw [hids, hid]
        exact find_zip_nodup ids metadatas hnd p1 p2 hp
      rw [← hupd]
      simp [hfind]

/-- C7: `delete_chunks` is idempotent — deleting the same ids twice equals
deleting them once — and deleting ids that match no stored chunk leaves
`count()` unchanged; the operation is total (returns a state, never an
error), so deleting absent or already-deleted ids cannot raise. -/
theorem delete_chunks_idempotent (st : ManagerState) (ids : List String) :
    ChromaDBManager.deleteChunks (ChromaDBManager.deleteChunks st ids) ids =
      ChromaDBManager.deleteChunks st ids ∧
    ((∀ i ∈ ids, ∀ e ∈ currentEntries st, e.id ≠ i) →
      ChromaDBManager.countChunks (ChromaDBManager.deleteChunks st ids) =
        ChromaDBManager.countChunks st) := by
  constructor
  · show ({ ChromaDBManager.deleteChunks st ids with
        db := dbSet (ChromaDBManager.deleteChunks st ids).db
          (ChromaDBManager.deleteChunks st ids).collectionName
          (chromaDelete (currentEntries (ChromaDBManager.deleteChunks st ids)) ids) }
      : ManagerState) = ChromaDBManager.deleteChunks st ids
    simp [ChromaDBManager.deleteChunks, currentEntries_withDb, dbSet_dbSet,
      chromaDelete_idem]
  · intro h
    have hkeep : chromaDelete (currentEntries st) ids = currentEntries st := by
      apply List.filter_eq_self.mpr
      intro e he
      have hmem : e.id ∉ ids := fun hm => h e.id hm e he rfl
      simpa [List.contains, List.elem_iff] using hmem
    simp [ChromaDBManager.countChunks, chromaCount, ChromaDBManager.deleteChunks,
      currentEntries_withDb, hkeep]

/-- C7 witness: deleting ids that are not stored (including one already
deleted) leaves the count unchanged, at a concrete populated state. -/
theorem delete_chunks_idempotent_witness :
    ChromaDBManager.countChunks
        (ChromaDBManager.deleteChunks exPopulated ["missing", "chunk_7"]) =
      ChromaDBManager.countChunks exPopulated :=
  (delete_chunks_idempotent exPopulated ["missing", "chunk_7"]).2 (by decide)

/-- C6 witness: the contract applied at a concrete state — an unknown id
signals NotFoundError, and updating the existing id `chunk_0` replaces its
metadata. -/
theorem update_chunk_metadata_witness :
    ChromaDBManager.updateChunkMetadata exPopulated ["missing"] [[("k", "v")]] =
        Except.error StoreError.notFoundError ∧
    (∃ st', ChromaDBManager.updateChunkMetadata exPopulated ["chunk_0"] [[("k", "v")]] =
        Except.ok st' ∧
      st'.collectionName = exPopulated.collectionName ∧
      ChromaDBManager.countChunks st' = ChromaDBManager.countChunks exPopulated ∧
      (["chunk_0"].Nodup → ∀ p1 p2, (p1, p2) ∈ ["chunk_0"].zip [[("k", "v")]] →
        ∀ e' ∈ currentEntries st', e'.id = p1 → e'.metadata = p2)) :=
  ⟨(update_chunk_metadata_contract exPopulated ["missing"] [[("k", "v")]]).1 (by decide),
   (update_chunk_metadata_contract exPopulated ["chunk_0"] [[("k", "v")]]).2 (by decide)⟩

theorem mergeLoop_ne_nil (embed : String → List ℚ) (t : ℚ) (m : Nat) :
    ∀ (us : List String) (cur : String) (vecs : List (List ℚ)),
      mergeLoop embed t m cur vecs us ≠ [] := by
  intro us
  induction us with
  | nil => intro cur vecs; simp [mergeLoop]
  | cons u us ih =>
    intro cur vecs
    unfold mergeLoop
    by_cases h : cur.length + u.length ≤ m ∧ t ≤ dot (centroid vecs) (embed u)
    · simpa [if_pos h] using ih (cur ++ u) (vecs ++ [embed u])
    · simp [if_neg h]

theorem chunksOfChars_ne_nil (fuel width : Nat) (l : List Char) (h : l ≠ []) :
    chunksOfChars fuel width l ≠ [] := by
  cases l with
  | nil => exact absurd rfl h
  | cons c cs => cases fuel <;> simp [chunksOfChars]

theorem poolPieces_ne_nil (tvs : List (List ℚ)) (off : Nat) (ps : List (List Char))
    (h : ps ≠ []) : poolPieces tvs off ps ≠ [] := by
  cases ps with
  | nil => exact absurd rfl h
  | cons p rest => simp [poolPieces]

theorem toList_ne_nil (doc : String) (h : doc ≠ "") : doc.toList ≠ [] := by
  intro hl
  apply h
  apply String.ext
  have hemp : ("" : String).data = [] := rfl
  rw [hemp]
  simpa [String.toList] using hl

/-- C3: chunking a document with non-empty text under either strategy
yields a non-empty sequence of chunks whenever the strategy is not in
strict mode (or the document meets the minimum size); a document that
cannot be segmented under the minimum size degrades to a single
whole-document chunk in non-strict mode, and fails with ChunkingError only
when configured to fail strictly. -/
theorem cunk_document_nonempty (cfg : ChunkConfig) (embed : String → List ℚ)
    (lc : LateChunkingCfg) (doc : String) (hdoc : doc ≠ "") :
    ((cfg.strict = false ∨ cfg.minSize ≤ doc.length) →
      ∃ cs, contextAwareChunk cfg embed doc = Except.ok cs ∧ cs ≠ []) ∧
    (doc.length < cfg.minSize → cfg.strict = false →
      contextAwareChunk cfg embed doc = Except.ok [{ text := doc, embedding := none }]) ∧
    (doc.length < cfg.minSize → cfg.strict = true →
      contextAwareChunk cfg embed doc = Except.error ChunkError.chunkingError) ∧
    ((lc.cfg.strict = false ∨ lc.cfg.minSize ≤ doc.length) →
      ∃ cs, lateChunk lc doc = Except.ok cs ∧ cs ≠ []) ∧
    (doc.length < lc.cfg.minSize → lc.cfg.strict = false →
      lateChunk lc doc =
        Except.ok [{ text := doc, embedding := some (centroid (lc.tokenVectors doc)) }]) ∧
    (doc.length < lc.cfg.minSize → lc.cfg.strict = true →
      lateChunk lc doc = Except.error ChunkError.chunkingError) := by
  refine ⟨?_, ?_, ?_, ?_, ?_, ?_⟩
  · intro h
    by_cases hmin : doc.length < cfg.minSize
    · rcases h with hs | hle
      · exact ⟨[{ text := doc, embedding := none }],
          by simp [contextAwareChunk, hmin, hs], by simp⟩
      · omega
    · unfold contextAwareChunk
      rw [if_neg hmin]
      cases hu : (doc.splitOn ".").filter (fun s => !s.isEmpty) with
      | nil => exact ⟨[{ text := doc, embedding := none }], rfl, by simp⟩
      | cons u us =>
        refine ⟨_, rfl, ?_⟩
        simpa using mergeLoop_ne_nil embed cfg.threshold cfg.maxSize us u [embed u]
  · intro hmin hs
    simp [contextAwareChunk, hmin, hs]
  · intro hmin hs
    simp [contextAwareChunk, hmin, hs]
  · intro h
    by_cases hmin : doc.length < lc.cfg.minSize
    · rcases h with hs | hle
      · exact ⟨[{ text := doc, embedding := some (centroid (lc.tokenVectors doc)) }],
          by simp [lateChunk, hmin, hs], by simp⟩
      · omega
    · unfold lateChunk
      simp only [if_neg hmin]
      refine ⟨_, rfl, ?_⟩
      exact poolPieces_ne_nil _ _ _
        (chunksOfChars_ne_nil doc.length lc.cfg.maxSize doc.toList (toList_ne_nil doc hdoc))
  · intro hmin hs
    simp [lateChunk, hmin, hs]
  · intro hmin hs
    simp [lateChunk, hmin, hs]

/-- C3 witness: both strategies on the concrete document `ab.cd` with a
non-strict configuration produce a non-empty chunk sequence. -/
theorem cunk_document_witness :
    (∃ cs, contextAwareChunk exCfg exEmbed "ab.cd" = Except.ok cs ∧ cs ≠ []) ∧
    (∃ cs, lateChunk exLate "ab.cd" = Except.ok cs ∧ cs ≠ []) :=
  ⟨(cunk_document_nonempty exCfg exEmbed exLate "ab.cd" (by decide)).1 (Or.inl rfl),
   (cunk_document_nonempty exCfg exEmbed exLate "ab.cd" (by decide)).2.2.2.1 (Or.inl rfl)⟩

/-- C8: the per-unit vector capability is demanded when the late chunking
strategy is configured — a missing capability signals CapabilityError at
configuration time, a present capability configures successfully — and a
configured strategy's chunking call can never signal CapabilityError. -/
theorem late_chunking_capability_config_time (e : Embedder) (cfg : ChunkConfig) :
    (e.tokenVectors = none →
      LateChunking.configure e cfg = Except.error ChunkError.capabilityError) ∧
    (∀ tv, e.tokenVectors = some tv →
      LateChunking.configure e cfg = Except.ok { cfg := cfg, tokenVectors := tv }) ∧
    (∀ (lc : LateChunkingCfg) (doc : String),
      lateChunk lc doc ≠ Except.error ChunkError.capabilityError) := by
  refine ⟨?_, ?_, ?_⟩
  · intro h; simp [LateChunking.configure, h]
  · intro tv h; simp [LateChunking.configure, h]
  · intro lc doc
    unfold lateChunk
    by_cases hmin : doc.length < lc.cfg.minSize
    · by_cases hs : lc.cfg.strict = true
      · simp [hmin, hs]
      · simp [hmin, hs]
    · simp [hmin]

/-- C8 witness: configuring late chunking with an embedder that lacks the
per-unit vector capability signals CapabilityError. -/
theorem late_chunking_capability_witness :
    LateChunking.configure exNoCapEmbedder exCfg =
      Except.error ChunkError.capabilityError :=
  (late_chunking_capability_config_time exNoCapEmbedder exCfg).1 rfl

/-- C9: `switch_collection` repoints the manager at the named collection,
which exists afterwards (lazily created when absent), and the contents of
every other collection are untouched. -/
theorem switch_collection_frame (st : ManagerState) (name c : String) :
    (ChromaDBManager.switchCollection st name).collectionName = name ∧
    (dbLookup (ChromaDBManager.switchCollection st name).db name).isSome = true ∧
    (c ≠ name →
      dbLookup (ChromaDBManager.switchCollection st name).db c = dbLookup st.db c) := by
  refine ⟨rfl, ?_, ?_⟩
  · show (dbLookup (getOrCreate st.db name) name).isSome = true
    unfold getOrCreate
    cases h : dbLookup st.db name with
    | some es => simp [h]
    | none =>
      rw [dbLookup_append_of_none st.db _ name h]
      simp [dbLookup]
  · intro hc
    show dbLookup (getOrCreate st.db name) c = dbLookup st.db c
    unfold getOrCreate
    cases h : dbLookup st.db name with
    | some es => rfl
    | none => exact dbLookup_append_single_ne st.db name c [] hc

/-- C9 witness: switching the populated manager to the collection `other`
leaves the contents of `document_chunks` unchanged. -/
theorem switch_collection_frame_witness :
    dbLookup (ChromaDBManager.switchCollection exPopulated "other").db "document_chunks" =
      dbLookup exPopulated.db "document_chunks" :=
  (switch_collection_frame exPopulated "other" "document_chunks").2.2 (by decide)

/-- C10: construction is total — for every filesystem, database, non-empty
persistence path and collection name it succeeds; afterwards the
persistence directory exists (created with parents when absent), the
manager holds the named collection (reused with its contents when present,
created empty when absent) and points at it. -/
theorem chroma_init_total (fs : FileSystem) (db : DB) (p : FsPath) (n : String)
    (hp : p ≠ []) :
    p ∈ (chromaInit fs db p n).fs ∧
    n ∈ ChromaDBManager.listCollections (chromaInit fs db p n).state ∧
    (chromaInit fs db p n).state.collectionName = n ∧
    (∀ es, dbLookup db n = some es →
      dbLookup (chromaInit fs db p n).state.db n = some es) ∧
    (dbLookup db n = none → dbLookup (chromaInit fs db p n).state.db n = some []) := by
  refine ⟨?_, ?_, rfl, ?_, ?_⟩
  · show p ∈ mkdirParents fs p
    unfold mkdirParents
    by_cases hc : fs.contains p = true
    · exact List.mem_append_left _ (List.elem_iff.mp hc)
    · apply List.mem_append_right
      apply List.mem_filter.mpr
      rw [Bool.not_eq_true] at hc
      refine ⟨?_, by rw [hc]; rfl⟩
      unfold pathPrefixes
      apply List.mem_map.mpr
      have hlen : 0 < p.length := List.length_pos.mpr hp
      refine ⟨p.length - 1, List.mem_range.mpr (by omega), ?_⟩
      have heq : p.length - 1 + 1 = p.length := by omega
      rw [heq, List.take_length]
  · show n ∈ (getOrCreate db n).map (fun q => q.1)
    unfold getOrCreate
    cases h : dbLookup db n with
    | some es => exact dbLookup_mem_listCollections db n es h
    | none => simp
  · intro es h
    show dbLookup (getOrCreate db n) n = some es
    unfold getOrCreate
    rw [h]
    exact h
  · intro h
    show dbLookup (getOrCreate db n) n = some []
    unfold getOrCreate
    rw [h]
    rw [dbLookup_append_of_none db _ n h]
    simp [dbLookup]

/-- C10 witness: constructing with the default arguments on an empty
filesystem and database creates the directory and the collection. -/
theorem chroma_init_witness :
    ["chroma_db"] ∈ (chromaInit [] [] ["chroma_db"] "document_chunks").fs ∧
    "document_chunks" ∈
      ChromaDBManager.listCollections (chromaInit [] [] ["chroma_db"] "document_chunks").state :=
  ⟨(chroma_init_total [] [] ["chroma_db"] "document_chunks" (by decide)).1,
   (chroma_init_total [] [] ["chroma_db"] "document_chunks" (by decide)).2.1⟩

end RAGForge
